import Mathlib

/-!
Verification development for the einsteinpy Earth-orbit example repository.

The repository ships a single notebook
(`docs/source/examples/Analysing_Earth_using_EinsteinPy!.ipynb`) that calls an
external Schwarzschild geodesic integrator
(`Schwarzschild.from_spherical` / `calculate_trajectory`).  The integrator
itself is not part of the supplied sources, so the numerical core below is
modelled from the specification: a state of eight real components
(t, r, θ, φ and their λ-derivatives), the closed-form Schwarzschild geodesic
right-hand side obtained from the Christoffel symbols, a classical
fixed-step fourth-order Runge–Kutta advance, and an `integrate` wrapper that
validates inputs and surfaces singularity errors.
-/

open Real

namespace EinsteinPy

/-- Speed of light in m/s, as used by the notebook's SI unit convention. -/
def c : ℝ := 299792458

/-- Newtonian gravitational constant in SI units. -/
def G : ℝ := 6.674e-11

/-- Schwarzschild radius `rs = 2 G M / c²` of a central mass `M` (kg). -/
noncomputable def rs (M : ℝ) : ℝ := 2 * G * M / c ^ 2

/-- Modelled from the spec: the `State` data model of the missing integrator,
an 8-tuple (t, r, θ, φ, dt/dλ, dr/dλ, dθ/dλ, dφ/dλ) of coordinate time,
spherical spatial coordinates and their derivatives with respect to the
affine parameter λ. -/
@[ext]
structure State where
  t : ℝ
  r : ℝ
  θ : ℝ
  φ : ℝ
  ut : ℝ
  ur : ℝ
  uθ : ℝ
  uφ : ℝ

namespace State

/-- Componentwise sum of two states (used by the Runge–Kutta stages). -/
def add (a b : State) : State :=
  ⟨a.t + b.t, a.r + b.r, a.θ + b.θ, a.φ + b.φ,
   a.ut + b.ut, a.ur + b.ur, a.uθ + b.uθ, a.uφ + b.uφ⟩

/-- Componentwise scaling of a state by a real number. -/
def smul (k : ℝ) (a : State) : State :=
  ⟨k * a.t, k * a.r, k * a.θ, k * a.φ,
   k * a.ut, k * a.ur, k * a.uθ, k * a.uφ⟩

@[simp] theorem add_t (a b : State) : (a.add b).t = a.t + b.t := rfl
@[simp] theorem add_r (a b : State) : (a.add b).r = a.r + b.r := rfl
@[simp] theorem add_θ (a b : State) : (a.add b).θ = a.θ + b.θ := rfl
@[simp] theorem add_φ (a b : State) : (a.add b).φ = a.φ + b.φ := rfl
@[simp] theorem add_ut (a b : State) : (a.add b).ut = a.ut + b.ut := rfl
@[simp] theorem add_ur (a b : State) : (a.add b).ur = a.ur + b.ur := rfl
@[simp] theorem add_uθ (a b : State) : (a.add b).uθ = a.uθ + b.uθ := rfl
@[simp] theorem add_uφ (a b : State) : (a.add b).uφ = a.uφ + b.uφ := rfl

@[simp] theorem smul_t (k : ℝ) (a : State) : (smul k a).t = k * a.t := rfl
@[simp] theorem smul_r (k : ℝ) (a : State) : (smul k a).r = k * a.r := rfl
@[simp] theorem smul_θ (k : ℝ) (a : State) : (smul k a).θ = k * a.θ := rfl
@[simp] theorem smul_φ (k : ℝ) (a : State) : (smul k a).φ = k * a.φ := rfl
@[simp] theorem smul_ut (k : ℝ) (a : State) : (smul k a).ut = k * a.ut := rfl
@[simp] theorem smul_ur (k : ℝ) (a : State) : (smul k a).ur = k * a.ur := rfl
@[simp] theorem smul_uθ (k : ℝ) (a : State) : (smul k a).uθ = k * a.uθ := rfl
@[simp] theorem smul_uφ (k : ℝ) (a : State) : (smul k a).uφ = k * a.uφ := rfl

end State

/-- Modelled from the spec: the geodesic ODE system `dState/dλ = f(State)` of
the missing integrator, with the second-derivative components given by the
closed-form Schwarzschild Christoffel symbols contracted with velocity
products (metric `ds² = -(1-rs/r) c² dt² + dr²/(1-rs/r) + r² dθ² + r² sin²θ dφ²`).
The result reuses `State` as the tangent vector of the state. -/
noncomputable def geodesicRHS (M : ℝ) (s : State) : State :=
  let rsM := rs M
  let f := 1 - rsM / s.r
  { t := s.ut
    r := s.ur
    θ := s.uθ
    φ := s.uφ
    ut := -(rsM / (s.r ^ 2 * f)) * s.ut * s.ur
    ur := -(c ^ 2 * rsM * f / (2 * s.r ^ 2)) * s.ut ^ 2
          + (rsM / (2 * s.r ^ 2 * f)) * s.ur ^ 2
          + s.r * f * (s.uθ ^ 2 + (Real.sin s.θ) ^ 2 * s.uφ ^ 2)
    uθ := -(2 / s.r) * s.ur * s.uθ + Real.sin s.θ * Real.cos s.θ * s.uφ ^ 2
    uφ := -(2 / s.r) * s.ur * s.uφ
          - 2 * (Real.cos s.θ / Real.sin s.θ) * s.uθ * s.uφ }

/-- Modelled from the spec: one fixed-step advance of the missing integrator
by the classical explicit fourth-order Runge–Kutta method applied to
`geodesicRHS`. -/
noncomputable def rk4Step (M h : ℝ) (s : State) : State :=
  let k1 := geodesicRHS M s
  let k2 := geodesicRHS M (s.add (State.smul (h / 2) k1))
  let k3 := geodesicRHS M (s.add (State.smul (h / 2) k2))
  let k4 := geodesicRHS M (s.add (State.smul h k3))
  s.add (State.smul (h / 6)
    (k1.add ((State.smul 2 k2).add ((State.smul 2 k3).add k4))))

/-- Modelled from the spec: the ordered sequence of trajectory samples,
obtained by iterating `rk4Step` `n` times from the initial state; the
sample at index `k` corresponds to affine parameter `λ = k · h`. -/
noncomputable def trajectorySamples (M h : ℝ) (s : State) : ℕ → List State
  | 0 => [s]
  | n + 1 => s :: trajectorySamples M h (rk4Step M h s) n

/-- Modelled from the spec: the number of Runge–Kutta steps taken so that
the affine parameter advances until it reaches `lambda_end`: samples are
produced at `λ = 0, h, 2h, …` for every multiple of `h` not exceeding
`lambda_end`. -/
noncomputable def nSteps (lambdaEnd h : ℝ) : ℕ := ⌊lambdaEnd / h⌋₊

/-- Modelled from the spec: the metric contraction of the 4-velocity with
itself under the Schwarzschild metric; for a timelike geodesic it must equal
the fixed constant `-c²`. -/
noncomputable def normSq (M : ℝ) (s : State) : ℝ :=
  -(1 - rs M / s.r) * c ^ 2 * s.ut ^ 2
    + s.ur ^ 2 / (1 - rs M / s.r)
    + s.r ^ 2 * s.uθ ^ 2
    + s.r ^ 2 * (Real.sin s.θ) ^ 2 * s.uφ ^ 2

/-- Modelled from the spec: the two error classes of the missing integrator. -/
inductive IntError where
  | invalidInput : IntError
  | integrationError : IntError
  deriving DecidableEq

/-- Modelled from the spec: the input-validation condition of the missing
integrator; it holds when the mass or a step parameter is non-positive or
the initial state violates the timelike normalization beyond the tolerance
`tol`. -/
def InvalidInputCond (s : State) (M lambdaEnd h tol : ℝ) : Prop :=
  M ≤ 0 ∨ h ≤ 0 ∨ lambdaEnd ≤ 0 ∨ tol < |normSq M s + c ^ 2|

/-- Modelled from the spec: the singularity condition of the missing
integrator; it holds when a state produced by stepping (any sample after the
initial one) reaches the coordinate singularity `r ≤ rs`. -/
def SingularCond (s : State) (M lambdaEnd h : ℝ) : Prop :=
  ∃ x ∈ (trajectorySamples M h s (nSteps lambdaEnd h)).drop 1, x.r ≤ rs M

open Classical in
/-- Modelled from the spec: the `integrate(initial_state, mass, lambda_end,
step_size)` contract of the missing integrator.  It fails with
`invalidInput` on invalid inputs, fails with `integrationError` when the
stepped trajectory reaches the coordinate singularity, and otherwise
returns the full sampled trajectory. -/
noncomputable def integrate (s : State) (M lambdaEnd h tol : ℝ) :
    Except IntError (List State) :=
  if InvalidInputCond s M lambdaEnd h tol then
    .error .invalidInput
  else if SingularCond s M lambdaEnd h then
    .error .integrationError
  else
    .ok (trajectorySamples M h s (nSteps lambdaEnd h))

theorem integrate_eq_ok (s : State) (M lambdaEnd h tol : ℝ)
    (h1 : ¬InvalidInputCond s M lambdaEnd h tol)
    (h2 : ¬SingularCond s M lambdaEnd h) :
    integrate s M lambdaEnd h tol =
      .ok (trajectorySamples M h s (nSteps lambdaEnd h)) := by
  unfold integrate
  rw [if_neg h1, if_neg h2]

theorem integrate_ok_elim (s : State) (M lambdaEnd h tol : ℝ) (l : List State)
    (hok : integrate s M lambdaEnd h tol = .ok l) :
    l = trajectorySamples M h s (nSteps lambdaEnd h) := by
  unfold integrate at hok
  split_ifs at hok
  exact (Except.ok.inj hok).symm

theorem integrate_lt_step (s : State) (M lambdaEnd h tol : ℝ)
    (hM : 0 < M) (hh : 0 < h) (hle : 0 < lambdaEnd) (hlt : lambdaEnd < h)
    (hnorm : |normSq M s + c ^ 2| ≤ tol) :
    integrate s M lambdaEnd h tol = .ok [s] := by
  have h0 : nSteps lambdaEnd h = 0 :=
    Nat.floor_eq_zero.mpr ((div_lt_one hh).mpr hlt)
  have hsamp : trajectorySamples M h s (nSteps lambdaEnd h) = [s] := by
    rw [h0]; rfl
  have h1 : ¬InvalidInputCond s M lambdaEnd h tol := by
    unfold InvalidInputCond
    push_neg
    exact ⟨hM, hh, hle, hnorm⟩
  have h2 : ¬SingularCond s M lambdaEnd h := by
    unfold SingularCond
    rw [hsamp]
    simp
  rw [integrate_eq_ok s M lambdaEnd h tol h1 h2, hsamp]

/-- Claim C5: for every valid initial state and mass, calling `integrate` with
`lambda_end` smaller than `step_size` succeeds (raises no error) and returns a
trajectory containing exactly one sample, namely the initial state. -/
theorem integrate_boundary_single_sample (s : State) (M lambdaEnd h tol : ℝ)
    (hM : 0 < M) (hh : 0 < h) (hle : 0 < lambdaEnd) (hlt : lambdaEnd < h)
    (hnorm : |normSq M s + c ^ 2| ≤ tol) :
    integrate s M lambdaEnd h tol = .ok [s] :=
  integrate_lt_step s M lambdaEnd h tol hM hh hle hlt hnorm

/-- Witness for claim C5 at the concrete input `M = 1`, `lambda_end = 1`,
`step_size = 2`, tolerance `c²` and a state at rest at radius 1 m. -/
theorem integrate_boundary_single_sample_witness :
    integrate ⟨0, 1, Real.pi / 2, 0, 0, 0, 0, 0⟩ 1 1 2 (c ^ 2) =
      .ok [⟨0, 1, Real.pi / 2, 0, 0, 0, 0, 0⟩] := by
  apply integrate_boundary_single_sample <;> norm_num [normSq, c, abs_le]

/-- Claim C8: `integrate` fails with `invalidInput` exactly when the mass or a
step parameter is non-positive or the initial state violates the timelike
normalization beyond tolerance; it fails with `integrationError` exactly when
the inputs are otherwise valid and some stepped sample reaches the coordinate
singularity `r ≤ rs`; and it returns `ok l` exactly when neither error fires
and `l` is the full sampled trajectory, so every error is surfaced to the
caller and never silently absorbed. -/
theorem integrate_error_spec (s : State) (M lambdaEnd h tol : ℝ)
    (l : List State) :
    (integrate s M lambdaEnd h tol = .error .invalidInput ↔
      InvalidInputCond s M lambdaEnd h tol) ∧
    (integrate s M lambdaEnd h tol = .error .integrationError ↔
      ¬InvalidInputCond s M lambdaEnd h tol ∧ SingularCond s M lambdaEnd h) ∧
    (integrate s M lambdaEnd h tol = .ok l ↔
      ¬InvalidInputCond s M lambdaEnd h tol ∧ ¬SingularCond s M lambdaEnd h ∧
        l = trajectorySamples M h s (nSteps lambdaEnd h)) := by
  by_cases h1 : InvalidInputCond s M lambdaEnd h tol
  · have heq : integrate s M lambdaEnd h tol = .error .invalidInput := by
      unfold integrate
      rw [if_pos h1]
    rw [heq]
    refine ⟨⟨fun _ => h1, fun _ => rfl⟩, ⟨fun he => ?_, fun hc => absurd h1 hc.1⟩,
      ⟨fun he => ?_, fun hc => absurd h1 hc.1⟩⟩
    · exact absurd he (by simp)
    · exact absurd he (by simp)
  · by_cases h2 : SingularCond s M lambdaEnd h
    · have heq : integrate s M lambdaEnd h tol = .error .integrationError := by
        unfold integrate
        rw [if_neg h1, if_pos h2]
      rw [heq]
      refine ⟨⟨fun he => absurd he (by simp), fun hc => absurd hc h1⟩,
        ⟨fun _ => ⟨h1, h2⟩, fun _ => rfl⟩,
        ⟨fun he => absurd he (by simp), fun hc => absurd h2 hc.2.1⟩⟩
    · have heq := integrate_eq_ok s M lambdaEnd h tol h1 h2
      rw [heq]
      refine ⟨⟨fun he => absurd he (by simp), fun hc => absurd hc h1⟩,
        ⟨fun he => absurd he (by simp), fun hc => absurd hc.2 h2⟩,
        ⟨fun he => ⟨h1, h2, ?_⟩, fun hc => by rw [hc.2.2]⟩⟩
      simp only [Except.ok.injEq] at he
      exact he.symm

/-- Claim C9: `integrate` is a pure, deterministic function: two calls with
equal inputs return equal trajectories, and the embedding as a total function
admits no side effect outside the return value. -/
theorem integrate_deterministic (s₁ s₂ : State) (M₁ M₂ l₁ l₂ h₁ h₂ t₁ t₂ : ℝ)
    (hs : s₁ = s₂) (hM : M₁ = M₂) (hl : l₁ = l₂) (hh : h₁ = h₂)
    (ht : t₁ = t₂) :
    integrate s₁ M₁ l₁ h₁ t₁ = integrate s₂ M₂ l₂ h₂ t₂ := by
  rw [hs, hM, hl, hh, ht]

/-- Witness for claim C9 at a concrete repeated call. -/
theorem integrate_deterministic_witness :
    integrate ⟨0, 1, 0, 0, 0, 0, 0, 0⟩ 1 1 1 1 =
      integrate ⟨0, 1, 0, 0, 0, 0, 0, 0⟩ 1 1 1 1 :=
  integrate_deterministic _ _ _ _ _ _ _ _ _ _ rfl rfl rfl rfl rfl

/-- Modelled from the spec: one Cartesian output row of the integrator,
(t, x, y, z, dt/dλ, dx/dλ, dy/dλ, dz/dλ) in SI units, as documented in the
notebook's description of the return value. -/
structure CartRow where
  t : ℝ
  x : ℝ
  y : ℝ
  z : ℝ
  dt : ℝ
  dx : ℝ
  dy : ℝ
  dz : ℝ

/-- Modelled from the spec: conversion of a spherical sample to the Cartesian
row returned when `return_cartesian` is requested, via
`x = r sin θ cos φ`, `y = r sin θ sin φ`, `z = r cos θ` and the chain rule for
the velocities. -/
noncomputable def toCartesian (s : State) : CartRow :=
  { t := s.t
    x := s.r * Real.sin s.θ * Real.cos s.φ
    y := s.r * Real.sin s.θ * Real.sin s.φ
    z := s.r * Real.cos s.θ
    dt := s.ut
    dx := s.ur * Real.sin s.θ * Real.cos s.φ
          + s.r * Real.cos s.θ * s.uθ * Real.cos s.φ
          - s.r * Real.sin s.θ * Real.sin s.φ * s.uφ
    dy := s.ur * Real.sin s.θ * Real.sin s.φ
          + s.r * Real.cos s.θ * s.uθ * Real.sin s.φ
          + s.r * Real.sin s.θ * Real.cos s.φ * s.uφ
    dz := s.ur * Real.cos s.θ - s.r * Real.sin s.θ * s.uθ }

/-- A state lies in the equatorial plane with zero polar velocity. -/
def Equatorial (s : State) : Prop := s.θ = Real.pi / 2 ∧ s.uθ = 0

theorem geodesicRHS_equatorial (M : ℝ) (s : State) (hs : Equatorial s) :
    (geodesicRHS M s).θ = 0 ∧ (geodesicRHS M s).uθ = 0 := by
  obtain ⟨hθ, huθ⟩ := hs
  constructor
  · simp [geodesicRHS, huθ]
  · simp [geodesicRHS, hθ, huθ, Real.cos_pi_div_two]

theorem add_smul_equatorial (a : ℝ) (s k : State) (hs : Equatorial s)
    (hkθ : k.θ = 0) (hkuθ : k.uθ = 0) :
    Equatorial (s.add (State.smul a k)) := by
  obtain ⟨hθ, huθ⟩ := hs
  constructor
  · simp [hθ, hkθ]
  · simp [huθ, hkuθ]

theorem rk4Step_equatorial (M h : ℝ) (s : State) (hs : Equatorial s) :
    Equatorial (rk4Step M h s) := by
  have h1 := geodesicRHS_equatorial M s hs
  have e2 : Equatorial (s.add (State.smul (h / 2) (geodesicRHS M s))) :=
    add_smul_equatorial _ _ _ hs h1.1 h1.2
  have h2 := geodesicRHS_equatorial M _ e2
  have e3 : Equatorial (s.add (State.smul (h / 2)
      (geodesicRHS M (s.add (State.smul (h / 2) (geodesicRHS M s)))))) :=
    add_smul_equatorial _ _ _ hs h2.1 h2.2
  have h3 := geodesicRHS_equatorial M _ e3
  have e4 : Equatorial (s.add (State.smul h
      (geodesicRHS M (s.add (State.smul (h / 2)
        (geodesicRHS M (s.add (State.smul (h / 2) (geodesicRHS M s))))))))) :=
    add_smul_equatorial _ _ _ hs h3.1 h3.2
  have h4 := geodesicRHS_equatorial M _ e4
  obtain ⟨hθ, huθ⟩ := hs
  constructor
  · simp only [rk4Step, State.add_θ, State.smul_θ, h1.1, h2.1, h3.1, h4.1, hθ]
    ring
  · simp only [rk4Step, State.add_uθ, State.smul_uθ, h1.2, h2.2, h3.2, h4.2, huθ]
    ring

theorem trajectorySamples_equatorial (M h : ℝ) (s : State) (n : ℕ)
    (hs : Equatorial s) :
    ∀ x ∈ trajectorySamples M h s n, Equatorial x := by
  induction n generalizing s with
  | zero =>
    intro x hx
    simp only [trajectorySamples, List.mem_singleton] at hx
    exact hx ▸ hs
  | succ n ih =>
    intro x hx
    simp only [trajectorySamples, List.mem_cons] at hx
    rcases hx with rfl | hx
    · exact hs
    · exact ih (rk4Step M h s) (rk4Step_equatorial M h s hs) x hx

/-- Claim C10: for every initial state in the equatorial plane with zero polar
velocity (θ = π/2, dθ/dλ = 0, as in the notebook's `pos_vec` / `vel_vec`),
every sample of the returned Cartesian trajectory has `z = 0` and
`dz/dλ = 0`, so the radial distance computed from only the x and y columns
equals the full three-dimensional radial distance at every sample. -/
theorem equatorial_trajectory_z_zero (M h : ℝ) (s : State) (n : ℕ)
    (hθ : s.θ = Real.pi / 2) (huθ : s.uθ = 0) :
    ∀ x ∈ trajectorySamples M h s n,
      (toCartesian x).z = 0 ∧ (toCartesian x).dz = 0 ∧
      Real.sqrt ((toCartesian x).x ^ 2 + (toCartesian x).y ^ 2) =
        Real.sqrt ((toCartesian x).x ^ 2 + (toCartesian x).y ^ 2 +
          (toCartesian x).z ^ 2) := by
  intro x hx
  obtain ⟨hxθ, hxuθ⟩ := trajectorySamples_equatorial M h s n ⟨hθ, huθ⟩ x hx
  have hz : (toCartesian x).z = 0 := by
    simp [toCartesian, hxθ, Real.cos_pi_div_two]
  have hdz : (toCartesian x).dz = 0 := by
    simp [toCartesian, hxθ, hxuθ, Real.cos_pi_div_two]
  refine ⟨hz, hdz, ?_⟩
  rw [hz]
  norm_num

/-- Witness for claim C10 at the concrete equatorial state of the notebook
shape (radius 1 m, θ = π/2, zero velocities) with `M = 1`, `h = 1`, one step. -/
theorem equatorial_trajectory_z_zero_witness :
    (toCartesian ⟨0, 1, Real.pi / 2, 0, 0, 0, 0, 0⟩).z = 0 ∧
    (toCartesian ⟨0, 1, Real.pi / 2, 0, 0, 0, 0, 0⟩).dz = 0 ∧
    Real.sqrt ((toCartesian ⟨0, 1, Real.pi / 2, 0, 0, 0, 0, 0⟩).x ^ 2 +
        (toCartesian ⟨0, 1, Real.pi / 2, 0, 0, 0, 0, 0⟩).y ^ 2) =
      Real.sqrt ((toCartesian ⟨0, 1, Real.pi / 2, 0, 0, 0, 0, 0⟩).x ^ 2 +
        (toCartesian ⟨0, 1, Real.pi / 2, 0, 0, 0, 0, 0⟩).y ^ 2 +
        (toCartesian ⟨0, 1, Real.pi / 2, 0, 0, 0, 0, 0⟩).z ^ 2) :=
  equatorial_trajectory_z_zero 1 1 ⟨0, 1, Real.pi / 2, 0, 0, 0, 0, 0⟩ 0 rfl rfl
    ⟨0, 1, Real.pi / 2, 0, 0, 0, 0, 0⟩ (by simp [trajectorySamples])

/-- A circular-orbit initial condition: equatorial plane, zero radial and
polar velocity, and vanishing radial acceleration of the geodesic equation
(the angular velocity balances the metric's radial pull). -/
def CircularOrbit (M : ℝ) (s : State) : Prop :=
  s.θ = Real.pi / 2 ∧ s.uθ = 0 ∧ s.ur = 0 ∧
  -(c ^ 2 * rs M * (1 - rs M / s.r) / (2 * s.r ^ 2)) * s.ut ^ 2
      + s.r * (1 - rs M / s.r) * s.uφ ^ 2 = 0

/-- Tangent vector of a circular-orbit state: only t and φ advance. -/
def circVec (s : State) : State := ⟨s.ut, 0, 0, s.uφ, 0, 0, 0, 0⟩

theorem geodesicRHS_circular (M : ℝ) (s : State) (hc : CircularOrbit M s) :
    geodesicRHS M s = circVec s := by
  obtain ⟨hθ, huθ, hur, hacc⟩ := hc
  ext
  all_goals simp [geodesicRHS, circVec, hθ, huθ, hur, Real.sin_pi_div_two,
    Real.cos_pi_div_two]
  linear_combination hacc

theorem circular_stage (M a : ℝ) (s : State) (hc : CircularOrbit M s) :
    CircularOrbit M (s.add (State.smul a (circVec s))) := by
  obtain ⟨hθ, huθ, hur, hacc⟩ := hc
  refine ⟨?_, ?_, ?_, ?_⟩
  · simp [circVec, hθ]
  · simp [circVec, huθ]
  · simp [circVec, hur]
  · simpa [circVec] using hacc

theorem geodesicRHS_stage (M a : ℝ) (s : State) (hc : CircularOrbit M s) :
    geodesicRHS M (s.add (State.smul a (circVec s))) = circVec s := by
  have h1 := geodesicRHS_circular M _ (circular_stage M a s hc)
  rw [h1]
  simp [circVec]

theorem rk4Step_circular (M h : ℝ) (s : State) (hc : CircularOrbit M s) :
    rk4Step M h s =
      { s with t := s.t + h * s.ut, φ := s.φ + h * s.uφ } := by
  simp only [rk4Step, geodesicRHS_circular M s hc, geodesicRHS_stage M (h / 2) s hc,
    geodesicRHS_stage M h s hc]
  ext <;> simp [circVec, State.add, State.smul] <;> ring

theorem circular_update (M h : ℝ) (s : State) (hc : CircularOrbit M s) :
    CircularOrbit M { s with t := s.t + h * s.ut, φ := s.φ + h * s.uφ } := by
  obtain ⟨hθ, huθ, hur, hacc⟩ := hc
  exact ⟨hθ, huθ, hur, hacc⟩

theorem trajectorySamples_circular_r (M h : ℝ) (s : State) (n : ℕ)
    (hc : CircularOrbit M s) :
    ∀ x ∈ trajectorySamples M h s n, x.r = s.r := by
  induction n generalizing s with
  | zero =>
    intro x hx
    simp only [trajectorySamples, List.mem_singleton] at hx
    rw [hx]
  | succ n ih =>
    intro x hx
    simp only [trajectorySamples, List.mem_cons] at hx
    rcases hx with rfl | hx
    · rfl
    · have hstep := rk4Step_circular M h s hc
      have hc' : CircularOrbit M (rk4Step M h s) := by
        rw [hstep]; exact circular_update M h s hc
      have hr : (rk4Step M h s).r = s.r := by rw [hstep]
      rw [← hr]
      exact ih (rk4Step M h s) hc' x hx

/-- Claim C6: for every initial condition corresponding to a circular orbit,
every sample of the trajectory returned by `integrate` has the same radial
coordinate r as the initial state. -/
theorem circular_orbit_constant_r (s : State) (M lambdaEnd h tol : ℝ)
    (l : List State) (hc : CircularOrbit M s)
    (hok : integrate s M lambdaEnd h tol = .ok l) :
    ∀ x ∈ l, x.r = s.r := by
  rw [integrate_ok_elim s M lambdaEnd h tol l hok]
  exact trajectorySamples_circular_r M h s (nSteps lambdaEnd h) hc

/-- Witness for claim C6 at a concrete circular-orbit state (a static state
at radius 1 m with zero angular velocity, which satisfies the radial balance
trivially), with `M = 1`, `lambda_end = 1`, `step_size = 2`, tolerance `c²`. -/
theorem circular_orbit_constant_r_witness :
    (⟨0, 1, Real.pi / 2, 0, 0, 0, 0, 0⟩ : State).r = 1 :=
  circular_orbit_constant_r ⟨0, 1, Real.pi / 2, 0, 0, 0, 0, 0⟩ 1 1 2 (c ^ 2)
    [⟨0, 1, Real.pi / 2, 0, 0, 0, 0, 0⟩]
    ⟨rfl, rfl, rfl, by norm_num⟩
    (integrate_lt_step ⟨0, 1, Real.pi / 2, 0, 0, 0, 0, 0⟩ 1 1 2 (c ^ 2)
      (by norm_num) (by norm_num) (by norm_num) (by norm_num)
      (by norm_num [normSq, c, abs_le]))
    ⟨0, 1, Real.pi / 2, 0, 0, 0, 0, 0⟩ (by simp)

/-- Modelled from the spec: a curve of states satisfies the geodesic ODE
system `dState/dλ = f(State)` at `x` when each component's derivative is the
corresponding component of `geodesicRHS` at the current state. -/
def SatisfiesGeodesicODE (M : ℝ) (σ : ℝ → State) (x : ℝ) : Prop :=
  HasDerivAt (fun y => (σ y).t) ((geodesicRHS M (σ x)).t) x ∧
  HasDerivAt (fun y => (σ y).r) ((geodesicRHS M (σ x)).r) x ∧
  HasDerivAt (fun y => (σ y).θ) ((geodesicRHS M (σ x)).θ) x ∧
  HasDerivAt (fun y => (σ y).φ) ((geodesicRHS M (σ x)).φ) x ∧
  HasDerivAt (fun y => (σ y).ut) ((geodesicRHS M (σ x)).ut) x ∧
  HasDerivAt (fun y => (σ y).ur) ((geodesicRHS M (σ x)).ur) x ∧
  HasDerivAt (fun y => (σ y).uθ) ((geodesicRHS M (σ x)).uθ) x ∧
  HasDerivAt (fun y => (σ y).uφ) ((geodesicRHS M (σ x)).uφ) x

theorem normSq_hasDerivAt_zero (M : ℝ) (σ : ℝ → State) (x : ℝ)
    (hode : SatisfiesGeodesicODE M σ x)
    (hr : (σ x).r ≠ 0) (hf : 1 - rs M / (σ x).r ≠ 0)
    (hsin : Real.sin ((σ x).θ) ≠ 0) :
    HasDerivAt (fun y => normSq M (σ y)) 0 x := by
  obtain ⟨hdt, hdr, hdθ, hdφ, hdut, hdur, hduθ, hduφ⟩ := hode
  simp only [geodesicRHS] at hdt hdr hdθ hdφ hdut hdur hduθ hduφ
  have h_rsr : HasDerivAt (fun y => rs M / (σ y).r)
      ((0 * (σ x).r - rs M * (σ x).ur) / (σ x).r ^ 2) x :=
    (hasDerivAt_const x (rs M)).div hdr hr
  have h_f : HasDerivAt (fun y => 1 - rs M / (σ y).r)
      (0 - (0 * (σ x).r - rs M * (σ x).ur) / (σ x).r ^ 2) x :=
    (hasDerivAt_const x 1).sub h_rsr
  have h_sinθ : HasDerivAt (fun y => Real.sin ((σ y).θ))
      (Real.cos ((σ x).θ) * (σ x).uθ) x := hdθ.sin
  have hA := (h_f.neg.mul_const (c ^ 2)).mul (hdut.pow 2)
  have hB := (hdur.pow 2).div h_f hf
  have hC := (hdr.pow 2).mul (hduθ.pow 2)
  have hD := ((hdr.pow 2).mul (h_sinθ.pow 2)).mul (hduφ.pow 2)
  have H := ((hA.add hB).add hC).add hD
  simp only [normSq]
  convert H using 1
  symm
  have hrs : (σ x).r - rs M ≠ 0 := by
    intro h0
    apply hf
    rw [show rs M = (σ x).r by linarith]
    field_simp
  simp only [pow_one, Nat.cast_ofNat, zero_mul, zero_sub, sub_zero, neg_neg]
  field_simp [hr, hrs, hsin]
  ring

/-- Claim C7: for every initial state satisfying the timelike normalization
condition (the Schwarzschild metric contraction of the 4-velocity with itself
equals −c²), every state along a geodesic solution also satisfies this
normalization condition: the invariant is exactly conserved by the geodesic
flow, so sampled states deviate from it only by integrator error. -/
theorem normalization_preserved (M : ℝ) (σ : ℝ → State)
    (hode : ∀ x, SatisfiesGeodesicODE M σ x)
    (hr : ∀ x, (σ x).r ≠ 0) (hf : ∀ x, 1 - rs M / (σ x).r ≠ 0)
    (hsin : ∀ x, Real.sin ((σ x).θ) ≠ 0)
    (h0 : normSq M (σ 0) = -c ^ 2) :
    ∀ x, normSq M (σ x) = -c ^ 2 := by
  have hd : ∀ y, HasDerivAt (fun z => normSq M (σ z)) 0 y := fun y =>
    normSq_hasDerivAt_zero M σ y (hode y) (hr y) (hf y) (hsin y)
  intro x
  have hconst :
      (fun z => normSq M (σ z)) x = (fun z => normSq M (σ z)) 0 :=
    is_const_of_deriv_eq_zero (fun y => (hd y).differentiableAt)
      (fun y => (hd y).deriv) x 0
  simpa [h0] using hconst

/-- Concrete circular geodesic used as a witness: a circle of radius 1 m
around the mass `c²/(4G)`, whose Schwarzschild radius is 1/2 m, traversed
with dt/dλ = 2 and dφ/dλ = c. -/
noncomputable def circCurve (x : ℝ) : State :=
  ⟨2 * x, 1, Real.pi / 2, c * x, 2, 0, 0, c⟩

theorem rs_circMass : rs (c ^ 2 / (4 * G)) = 1 / 2 := by
  unfold rs c G
  norm_num

theorem geodesicRHS_circCurve (x : ℝ) :
    geodesicRHS (c ^ 2 / (4 * G)) (circCurve x) =
      ⟨2, 0, 0, c, 0, 0, 0, 0⟩ := by
  ext
  all_goals simp [geodesicRHS, circCurve, rs_circMass, Real.sin_pi_div_two,
    Real.cos_pi_div_two]
  ring

theorem circCurve_ode (x : ℝ) :
    SatisfiesGeodesicODE (c ^ 2 / (4 * G)) circCurve x := by
  unfold SatisfiesGeodesicODE
  rw [geodesicRHS_circCurve]
  exact ⟨by simpa using (hasDerivAt_id x).const_mul (2 : ℝ),
    hasDerivAt_const x 1, hasDerivAt_const x (Real.pi / 2),
    by simpa using (hasDerivAt_id x).const_mul c,
    hasDerivAt_const x 2, hasDerivAt_const x 0,
    hasDerivAt_const x 0, hasDerivAt_const x c⟩

/-- Witness for claim C7: along the concrete circular geodesic `circCurve`
the timelike normalization `-c²` holds at affine parameter 1. -/
theorem normalization_preserved_witness :
    normSq (c ^ 2 / (4 * G)) (circCurve 1) = -c ^ 2 :=
  normalization_preserved (c ^ 2 / (4 * G)) circCurve circCurve_ode
    (fun x => by simp [circCurve])
    (fun x => by simp [circCurve, rs_circMass]; norm_num)
    (fun x => by simp [circCurve])
    (by simp [normSq, circCurve, rs_circMass]; ring) 1

end EinsteinPy
